import Mathlib

/-!
Verification of the framing decoder and windowed signal analytics of
`plotter_nodemcu2.py` and `plottter_stm.py`.

Bytes are modelled as `Nat` (values 0-255 on the wire); the accumulation
buffer is a `List Nat`; the events a decode pass emits are collected in a
list instead of being performed as side effects (`y_data.extend` for a
validated payload, the diagnostic print for a checksum failure).
-/

namespace Plotter

/-- One observable outcome of processing a complete frame: a validated
payload (whose bytes the scripts push into the plot window), or a
checksum-mismatch report carrying the rejected frame's raw bytes. -/
inductive DecodeEvent where
  | payload (data : List Nat)
  | checksumMismatch (raw : List Nat)
deriving DecidableEq, Repr

/-- The XOR fold computed inside `verify_checksum`:
`cs = 0; for b in data: cs ^= b`. -/
def xor_fold (data : List Nat) : Nat := data.foldl Nat.xor 0

/-- `verify_checksum(data, checksum)` of both scripts: the XOR fold of the
payload equals the received checksum byte. -/
def verify_checksum (data : List Nat) (checksum : Nat) : Bool :=
  xor_fold data == checksum

/-- The packet-extraction loop of `update` in `plotter_nodemcu2.py`
(lines 97-117), run until it breaks: given the accumulation buffer it
returns the emitted events and the final buffer.  The loop breaks when
fewer than 3 bytes remain, pops the first byte while it is not the sync
byte `0xAA`, breaks while a frame is incomplete
(`len(buffer) < 2 + length + 1`), and otherwise consumes one frame of
`2 + length + 1` bytes, emitting `Payload` or `ChecksumMismatch`. -/
def nodemcu_process : List Nat → List DecodeEvent × List Nat
  | [] => ([], [])
  | [a] => ([], [a])
  | [a, b] => ([], [a, b])
  | a :: b :: c :: t =>
    if a = 0xAA then
      if (c :: t).length < b + 1 then ([], a :: b :: c :: t)
      else
        let res := nodemcu_process ((c :: t).drop (b + 1))
        if verify_checksum ((c :: t).take b) ((c :: t).getD b 0) then
          (DecodeEvent.payload ((c :: t).take b) :: res.1, res.2)
        else
          (DecodeEvent.checksumMismatch (a :: b :: (c :: t).take (b + 1)) :: res.1, res.2)
    else nodemcu_process (b :: c :: t)
termination_by l => l.length
decreasing_by
  all_goals simp only [List.length_drop, List.length_cons]
  all_goals omega

/-- `extract_packet(buffer)` of `plottter_stm.py` (lines 62-76): find the
first sync byte, return `none` with the untouched buffer when no complete
packet is present, otherwise the full packet
(sync + length + payload + checksum) and the remaining bytes after it. -/
def extract_packet (buffer : List Nat) : Option (List Nat) × List Nat :=
  match buffer.findIdx? (· = 0xAA) with
  | none => (none, buffer)
  | some start_index =>
    if buffer.length < start_index + 3 then (none, buffer)
    else
      let length := buffer.getD (start_index + 1) 0
      if buffer.length < start_index + 2 + length + 1 then (none, buffer)
      else
        ((buffer.drop start_index).take (2 + length + 1),
         buffer.drop (start_index + 2 + length + 1))

theorem extract_packet_shrink {buf packet rem : List Nat}
    (h : extract_packet buf = (some packet, rem)) : rem.length < buf.length := by
  unfold extract_packet at h
  split at h
  · simp at h
  · dsimp only at h
    split at h
    · simp at h
    · split at h
      · simp at h
      · rename_i k hf h3 hc
        rw [Prod.mk.injEq] at h
        obtain ⟨-, h2⟩ := h
        subst h2
        simp only [List.length_drop]
        omega

/-- The packet loop of `update` in `plottter_stm.py` (lines 104-116):
repeatedly call `extract_packet`; stop when it returns no packet,
otherwise validate `packet[2:-1]` against `packet[-1]` and continue on
the remaining bytes. -/
def stm_process (buf : List Nat) : List DecodeEvent × List Nat :=
  match h : extract_packet buf with
  | (none, b) => ([], b)
  | (some packet, remaining) =>
    let res := stm_process remaining
    if verify_checksum (packet.drop 2).dropLast ((packet.getLast?).getD 0) then
      (DecodeEvent.payload ((packet.drop 2).dropLast) :: res.1, res.2)
    else
      (DecodeEvent.checksumMismatch packet :: res.1, res.2)
termination_by buf.length
decreasing_by
  exact extract_packet_shrink h

/-- Feeding a sequence of chunks: each `update` call appends the chunk it
read to the buffer and runs the extraction loop; events accumulate across
calls.  The decoder starts with an empty buffer. -/
def run_decoder (step : List Nat → List DecodeEvent × List Nat)
    (chunks : List (List Nat)) : List DecodeEvent × List Nat :=
  chunks.foldl
    (fun st chunk =>
      ((st.1 ++ (step (st.2 ++ chunk)).1), (step (st.2 ++ chunk)).2))
    ([], [])

/-- A frame on the wire: sync `0xAA`, length byte, payload, checksum byte. -/
def mkFrame (p : List Nat) (cs : Nat) : List Nat :=
  0xAA :: p.length :: (p ++ [cs])

/-- `max_points = 200`: capacity of the plot's sliding window. -/
def max_points : Nat := 200

/-- One `append` on a `deque` with `maxlen`: when the deque is full the
oldest (leftmost) entries are evicted so the length never exceeds
`maxlen`. -/
def deque_push (maxlen : Nat) (w : List Nat) (x : Nat) : List Nat :=
  if w.length < maxlen then w ++ [x] else (w ++ [x]).drop (w.length + 1 - maxlen)

/-- `y_data.extend(data)`: append the samples one by one. -/
def deque_extend (maxlen : Nat) (w : List Nat) (xs : List Nat) : List Nat :=
  xs.foldl (deque_push maxlen) w

/-- `y_data = deque([0]*max_points, maxlen=max_points)`. -/
def y_data_init : List Nat := List.replicate max_points 0

/-- `np.sign` on a rational: -1, 0 or 1. -/
def npSign (x : Rat) : Int := if x < 0 then -1 else if 0 < x then 1 else 0

/-- `np.mean` of a list of rationals. -/
def listMean (l : List Rat) : Rat := l.sum / (l.length : Rat)

/-- `np.diff` on a vector of integers: consecutive differences. -/
def npDiffI (l : List Int) : List Int := List.zipWith (fun a b => b - a) l l.tail

/-- `np.diff` on a vector of indices (naturals), as integers. -/
def npDiffN (l : List Nat) : List Int :=
  List.zipWith (fun (a b : Nat) => (b : Int) - (a : Int)) l l.tail

/-- `np.where(v > 0)[0]`: the indices, in increasing order, at which the
vector is positive. -/
def npWhere (l : List Int) : List Nat :=
  (List.range l.length).filter (fun i => decide (0 < l.getD i 0))

/-- The rising-crossing indices computed inside `estimate_frequency`:
`np.where(np.diff(np.sign(y_array - mean_val)) > 0)[0]`. -/
def crossings_of (y_values : List Rat) : List Nat :=
  npWhere (npDiffI (y_values.map (fun y => npSign (y - listMean y_values))))

/-- `estimate_frequency(y_values, sample_rate)` of both scripts, with the
numpy float arithmetic idealized over the rationals: fewer than two
rising crossings give 0, otherwise the sample rate divided by the mean
gap between consecutive crossing indices. -/
def estimate_frequency (y_values : List Rat) (sample_rate : Rat) : Rat :=
  if (crossings_of y_values).length < 2 then 0
  else
    sample_rate /
      (((npDiffN (crossings_of y_values)).map (fun (g : Int) => (g : Rat))).sum /
        ((npDiffN (crossings_of y_values)).length : Rat))

/-- The claim's wording of the rising-crossing set: those indices `i` with
`sign(centered[i+1]) - sign(centered[i]) > 0`, `centered` being the window
minus its arithmetic mean. -/
def risingCrossingsSpec (y_values : List Rat) : List Nat :=
  (List.range (y_values.length - 1)).filter
    (fun i =>
      decide (0 < npSign ((y_values.map (fun y => y - listMean y_values)).getD (i + 1) 0)
                - npSign ((y_values.map (fun y => y - listMean y_values)).getD i 0)))

/-- `nodemcu_process` with an explicit iteration budget: `none` means the
budget ran out before the loop broke. -/
def nodemcu_process_fuel : Nat → List Nat → Option (List DecodeEvent × List Nat)
  | 0, _ => none
  | _ + 1, [] => some ([], [])
  | _ + 1, [a] => some ([], [a])
  | _ + 1, [a, b] => some ([], [a, b])
  | fuel + 1, a :: b :: c :: t =>
    if a = 0xAA then
      if (c :: t).length < b + 1 then some ([], a :: b :: c :: t)
      else
        match nodemcu_process_fuel fuel ((c :: t).drop (b + 1)) with
        | none => none
        | some res =>
          if verify_checksum ((c :: t).take b) ((c :: t).getD b 0) then
            some (DecodeEvent.payload ((c :: t).take b) :: res.1, res.2)
          else
            some (DecodeEvent.checksumMismatch (a :: b :: (c :: t).take (b + 1)) :: res.1, res.2)
    else nodemcu_process_fuel fuel (b :: c :: t)

/-- `stm_process` with an explicit iteration budget. -/
def stm_process_fuel : Nat → List Nat → Option (List DecodeEvent × List Nat)
  | 0, _ => none
  | fuel + 1, buf =>
    match extract_packet buf with
    | (none, b) => some ([], b)
    | (some packet, remaining) =>
      match stm_process_fuel fuel remaining with
      | none => none
      | some res =>
        if verify_checksum (packet.drop 2).dropLast ((packet.getLast?).getD 0) then
          some (DecodeEvent.payload ((packet.drop 2).dropLast) :: res.1, res.2)
        else
          some (DecodeEvent.checksumMismatch packet :: res.1, res.2)

/-- Drop the noise before the first sync byte (empty if there is none). -/
def dropSync (l : List Nat) : List Nat := l.dropWhile (fun b => !(b = 0xAA : Bool))

end Plotter

namespace Plotter

theorem foldl_xor_eq (l : List Nat) : ∀ a : Nat, l.foldl Nat.xor a = a ^^^ xor_fold l := by
  induction l with
  | nil => intro a; simp [xor_fold]
  | cons x t ih =>
    intro a
    simp only [xor_fold, List.foldl_cons]
    rw [ih (Nat.xor a x), ih (Nat.xor 0 x)]
    show a ^^^ x ^^^ _ = a ^^^ ((0 ^^^ x) ^^^ _)
    rw [Nat.zero_xor, Nat.xor_assoc]

theorem xor_fold_cons (x : Nat) (l : List Nat) :
    xor_fold (x :: l) = x ^^^ xor_fold l := by
  show List.foldl Nat.xor (Nat.xor 0 x) l = _
  rw [foldl_xor_eq l (Nat.xor 0 x)]
  show (0 ^^^ x) ^^^ _ = _
  rw [Nat.zero_xor]

theorem xor_fold_append (l1 l2 : List Nat) :
    xor_fold (l1 ++ l2) = xor_fold l1 ^^^ xor_fold l2 := by
  simp only [xor_fold, List.foldl_append]
  rw [foldl_xor_eq l2 (List.foldl Nat.xor 0 l1)]
  rfl

theorem flip_ne (a k : Nat) : a ^^^ 2 ^ k ≠ a := by
  intro hcontra
  have h2 : a ^^^ 2 ^ k = a ^^^ 0 := by rw [Nat.xor_zero]; exact hcontra
  have h3 := Nat.xor_right_inj.mp h2
  exact absurd h3 (by positivity)

theorem xor_fold_set : ∀ (p : List Nat) (i : Nat), i < p.length → ∀ v : Nat,
    xor_fold (p.set i v) = xor_fold p ^^^ p.getD i 0 ^^^ v := by
  intro p
  induction p with
  | nil => intro i hi v; simp at hi
  | cons x t ih =>
    intro i hi v
    cases i with
    | zero =>
      show xor_fold (v :: t) = xor_fold (x :: t) ^^^ x ^^^ v
      rw [xor_fold_cons, xor_fold_cons, Nat.xor_comm x (xor_fold t), Nat.xor_cancel_right,
        Nat.xor_comm v (xor_fold t)]
    | succ j =>
      show xor_fold (x :: t.set j v) = xor_fold (x :: t) ^^^ t.getD j 0 ^^^ v
      rw [xor_fold_cons, xor_fold_cons, ih j (by simpa using hi) v, ← Nat.xor_assoc,
        ← Nat.xor_assoc]

/-- C5 -/
theorem c5_verify_checksum_correct (p : List Nat) (c : Nat) (i k : Nat)
    (hi : i < p.length) (hk : k < 8) :
    (verify_checksum p c = true ↔ c = xor_fold p)
    ∧ xor_fold [] = 0
    ∧ verify_checksum p (xor_fold p) = true
    ∧ verify_checksum p (xor_fold p ^^^ 2 ^ k) = false
    ∧ verify_checksum (p.set i (p.getD i 0 ^^^ 2 ^ k)) (xor_fold p) = false := by
  have hiff : ∀ q d, verify_checksum q d = true ↔ d = xor_fold q := by
    intro q d
    show (xor_fold q == d) = true ↔ d = xor_fold q
    rw [beq_iff_eq]
    exact eq_comm
  refine ⟨hiff p c, rfl, ?_, ?_, ?_⟩
  · rw [hiff]
  · rw [Bool.eq_false_iff]
    intro hcontra
    exact flip_ne (xor_fold p) k ((hiff _ _).mp hcontra)
  · rw [Bool.eq_false_iff]
    intro hcontra
    have h1 := (hiff _ _).mp hcontra
    rw [xor_fold_set p i hi] at h1
    rw [Nat.xor_assoc, Nat.xor_cancel_left] at h1
    exact flip_ne (xor_fold p) k h1.symm

/-- C5 witness -/
theorem c5_witness :
    (verify_checksum [5, 10] 15 = true ↔ 15 = xor_fold [5, 10])
    ∧ xor_fold [] = 0
    ∧ verify_checksum [5, 10] (xor_fold [5, 10]) = true
    ∧ verify_checksum [5, 10] (xor_fold [5, 10] ^^^ 2 ^ 3) = false
    ∧ verify_checksum ([5, 10].set 0 (([5, 10] : List Nat).getD 0 0 ^^^ 2 ^ 3))
        (xor_fold [5, 10]) = false :=
  c5_verify_checksum_correct [5, 10] 15 0 3 (by decide) (by decide)

end Plotter

namespace Plotter

theorem deque_push_full (C : Nat) (w : List Nat) (x : Nat) (hw : w.length = C) :
    deque_push C w x = (w ++ [x]).drop 1 := by
  unfold deque_push
  rw [hw]
  rw [if_neg (Nat.lt_irrefl C)]
  congr 1
  omega

theorem deque_push_length (C : Nat) (w : List Nat) (x : Nat) (hw : w.length = C) :
    (deque_push C w x).length = C := by
  rw [deque_push_full C w x hw]
  simp [List.length_drop, hw]

theorem deque_extend_snapshot (C : Nat) :
    ∀ (samples : List Nat) (w : List Nat), w.length = C →
      deque_extend C w samples = (w ++ samples).drop samples.length := by
  intro samples
  induction samples with
  | nil => intro w hw; simp [deque_extend]
  | cons s ss ih =>
    intro w hw
    show deque_extend C (deque_push C w s) ss = _
    rw [ih (deque_push C w s) (deque_push_length C w s hw)]
    rw [deque_push_full C w s hw]
    rw [← List.drop_append_of_le_length (show 1 ≤ (w ++ [s]).length by simp)]
    rw [List.drop_drop, List.append_assoc]
    show List.drop (1 + ss.length) (w ++ s :: ss) = List.drop (ss.length + 1) (w ++ s :: ss)
    rw [Nat.add_comm]

/-- C6 -/
theorem c6_sliding_window (C : Nat) (w : List Nat) (x : Nat) (samples : List Nat)
    (hw : w.length = C) :
    y_data_init = List.replicate 200 0
    ∧ (deque_push C w x).length = C
    ∧ deque_extend C (List.replicate C 0) samples
        = (List.replicate C 0 ++ samples).drop samples.length
    ∧ (deque_extend C (List.replicate C 0) samples).length = C
    ∧ deque_extend 4 (List.replicate 4 0) [1, 2, 3, 4, 5] = [2, 3, 4, 5] := by
  have hsnap := deque_extend_snapshot C samples (List.replicate C 0) (by simp)
  refine ⟨rfl, deque_push_length C w x hw, hsnap, ?_, by decide⟩
  rw [hsnap]
  simp [List.length_drop]

/-- C6 witness -/
theorem c6_witness :
    y_data_init = List.replicate 200 0
    ∧ (deque_push 4 [0, 0, 0, 0] 7).length = 4
    ∧ deque_extend 4 (List.replicate 4 0) [1, 2, 3, 4, 5]
        = (List.replicate 4 0 ++ [1, 2, 3, 4, 5]).drop 5
    ∧ (deque_extend 4 (List.replicate 4 0) [1, 2, 3, 4, 5]).length = 4
    ∧ deque_extend 4 (List.replicate 4 0) [1, 2, 3, 4, 5] = [2, 3, 4, 5] :=
  c6_sliding_window 4 [0, 0, 0, 0] 7 [1, 2, 3, 4, 5] (by decide)

end Plotter

namespace Plotter

theorem stm_process_none (buf b : List Nat) (h : extract_packet buf = (none, b)) :
    stm_process buf = ([], b) := by
  rw [stm_process]
  split
  · rename_i heq
    rw [h] at heq
    injection heq with h1 h2
    rw [h2]
  · rename_i packet remaining heq
    rw [h] at heq
    injection heq with h1 h2
    exact absurd h1 (by simp)

theorem stm_process_some (buf packet remaining : List Nat)
    (h : extract_packet buf = (some packet, remaining)) :
    stm_process buf =
      (if verify_checksum (packet.drop 2).dropLast ((packet.getLast?).getD 0) then
        (DecodeEvent.payload ((packet.drop 2).dropLast) :: (stm_process remaining).1,
          (stm_process remaining).2)
      else
        (DecodeEvent.checksumMismatch packet :: (stm_process remaining).1,
          (stm_process remaining).2)) := by
  rw [stm_process]
  split
  · rename_i heq
    rw [h] at heq
    injection heq with h1 h2
    exact absurd h1 (by simp)
  · rename_i p2 r2 heq
    rw [h] at heq
    injection heq with h1 h2
    injection h1 with h1
    subst h1
    subst h2
    rfl

end Plotter

namespace Plotter

theorem nodemcu_process_pop {a b c : Nat} {t : List Nat} (ha : ¬(a = 0xAA)) :
    nodemcu_process (a :: b :: c :: t) = nodemcu_process (b :: c :: t) := by
  rw [nodemcu_process]
  rw [if_neg ha]

theorem nodemcu_process_incomplete {b c : Nat} {t : List Nat}
    (hinc : (c :: t).length < b + 1) :
    nodemcu_process (0xAA :: b :: c :: t) = ([], 0xAA :: b :: c :: t) := by
  rw [nodemcu_process]
  rw [if_pos rfl, if_pos hinc]

theorem nodemcu_process_frame {b c : Nat} {t : List Nat}
    (hcomp : ¬((c :: t).length < b + 1)) :
    nodemcu_process (0xAA :: b :: c :: t) =
      (if verify_checksum ((c :: t).take b) ((c :: t).getD b 0) then
        (DecodeEvent.payload ((c :: t).take b) :: (nodemcu_process ((c :: t).drop (b + 1))).1,
          (nodemcu_process ((c :: t).drop (b + 1))).2)
      else
        (DecodeEvent.checksumMismatch (0xAA :: b :: (c :: t).take (b + 1)) ::
            (nodemcu_process ((c :: t).drop (b + 1))).1,
          (nodemcu_process ((c :: t).drop (b + 1))).2)) := by
  rw [nodemcu_process]
  rw [if_pos rfl, if_neg hcomp]

end Plotter

namespace Plotter

theorem nodemcu_noise : ∀ (buf : List Nat), (∀ b ∈ buf, ¬(b = 0xAA)) →
    nodemcu_process buf = ([], buf.drop (buf.length - 2)) := by
  intro buf
  induction buf with
  | nil => intro h; simp [nodemcu_process]
  | cons a t ih =>
    intro h
    match t with
    | [] => simp [nodemcu_process]
    | [b] => simp [nodemcu_process]
    | b :: c :: t2 =>
      have ha : ¬(a = 0xAA) := h a (by simp)
      rw [nodemcu_process_pop ha]
      rw [ih (fun x hx => h x (List.mem_cons_of_mem a hx))]
      exact rfl

theorem stm_noise (buf : List Nat) (h : ∀ b ∈ buf, ¬(b = 0xAA)) :
    stm_process buf = ([], buf) := by
  have hf : buf.findIdx? (· = 0xAA) = none := by
    rw [List.findIdx?_eq_none_iff]
    intro x hx
    simpa using h x hx
  have he : extract_packet buf = (none, buf) := by
    unfold extract_packet
    rw [hf]
  exact stm_process_none buf buf he

/-- C1 counterexample: on the all-noise buffer `[1, 2, 3]` (no `0xAA`
anywhere) a single decode step leaves the nodemcu buffer `[2, 3]` and the
stm buffer `[1, 2, 3]` — neither decoder empties its buffer. -/
theorem c1_noise_discard_cex :
    (∀ b ∈ [1, 2, 3], ¬(b = 0xAA))
    ∧ ¬((nodemcu_process [1, 2, 3]).2 = [])
    ∧ ¬((stm_process [1, 2, 3]).2 = []) := by
  refine ⟨by decide, ?_, ?_⟩
  · rw [nodemcu_noise [1, 2, 3] (by decide)]; decide
  · rw [stm_noise [1, 2, 3] (by decide)]; decide

/-- C1 (amended): on a buffer with no `0xAA`, a single decode step emits
no events; the nodemcu step discards noise from the front only while at
least 3 bytes remain, keeping the last `min 2 (length)` bytes, and the
stm step keeps the buffer untouched. -/
theorem c1_noise_discard_amended (buf : List Nat) (h : ∀ b ∈ buf, ¬(b = 0xAA)) :
    nodemcu_process buf = ([], buf.drop (buf.length - 2))
    ∧ stm_process buf = ([], buf) :=
  ⟨nodemcu_noise buf h, stm_noise buf h⟩

/-- C1 witness -/
theorem c1_noise_discard_witness :
    nodemcu_process [1, 2, 3] = ([], ([1, 2, 3] : List Nat).drop (([1, 2, 3] : List Nat).length - 2))
    ∧ stm_process [1, 2, 3] = ([], [1, 2, 3]) :=
  c1_noise_discard_amended [1, 2, 3] (by decide)

/-- C2 counterexample: the spec fixture `AA 03 05 0A 0F 0A` carries
checksum byte `0x0A = 10`, but the XOR fold of the payload `[5, 10, 15]`
is `0`, so both decoders reject the frame with a `ChecksumMismatch` and
emit no `Payload` event. -/
theorem c2_end_to_end_cex :
    xor_fold [5, 10, 15] = 0
    ∧ ¬(xor_fold [5, 10, 15] = 0x0A)
    ∧ nodemcu_process [0xAA, 0x03, 0x05, 0x0A, 0x0F, 0x0A]
        = ([DecodeEvent.checksumMismatch [0xAA, 0x03, 0x05, 0x0A, 0x0F, 0x0A]], [])
    ∧ stm_process [0xAA, 0x03, 0x05, 0x0A, 0x0F, 0x0A]
        = ([DecodeEvent.checksumMismatch [0xAA, 0x03, 0x05, 0x0A, 0x0F, 0x0A]], []) := by
  refine ⟨by decide, by decide, ?_, ?_⟩
  · simp [nodemcu_process, verify_checksum, xor_fold]
  · rw [stm_process_some [0xAA, 0x03, 0x05, 0x0A, 0x0F, 0x0A]
      [0xAA, 0x03, 0x05, 0x0A, 0x0F, 0x0A] [] (by decide)]
    rw [stm_process_none [] [] (by decide)]
    decide

/-- C2 (amended): with the checksum byte corrected to the XOR fold `0x00`
of the payload `[5, 10, 15]`, feeding `AA 03 05 0A 0F 00` in one call
yields exactly one `Payload([5, 10, 15])` event in both decoders. -/
theorem c2_end_to_end_amended :
    xor_fold [5, 10, 15] = 0x00
    ∧ nodemcu_process [0xAA, 0x03, 0x05, 0x0A, 0x0F, 0x00]
        = ([DecodeEvent.payload [5, 10, 15]], [])
    ∧ stm_process [0xAA, 0x03, 0x05, 0x0A, 0x0F, 0x00]
        = ([DecodeEvent.payload [5, 10, 15]], []) := by
  refine ⟨by decide, ?_, ?_⟩
  · simp [nodemcu_process, verify_checksum, xor_fold]
    decide
  · rw [stm_process_some [0xAA, 0x03, 0x05, 0x0A, 0x0F, 0x00]
      [0xAA, 0x03, 0x05, 0x0A, 0x0F, 0x00] [] (by decide)]
    rw [stm_process_none [] [] (by decide)]
    decide

end Plotter

namespace Plotter

theorem mkFrame_length (p : List Nat) (cs : Nat) :
    (mkFrame p cs).length = p.length + 3 := by
  simp [mkFrame]

theorem nodemcu_pop (a b : Nat) (rest : List Nat) (hr : rest ≠ [])
    (ha : ¬(a = 0xAA)) :
    nodemcu_process (a :: b :: rest) = nodemcu_process (b :: rest) := by
  match rest, hr with
  | c :: t, _ => exact nodemcu_process_pop ha

theorem nodemcu_incomplete (b : Nat) (rest : List Nat) (hr : rest ≠ [])
    (hinc : rest.length < b + 1) :
    nodemcu_process (0xAA :: b :: rest) = ([], 0xAA :: b :: rest) := by
  match rest, hr with
  | c :: t, _ => exact nodemcu_process_incomplete hinc

theorem nodemcu_frame (b : Nat) (rest : List Nat) (hr : rest ≠ [])
    (hcomp : ¬(rest.length < b + 1)) :
    nodemcu_process (0xAA :: b :: rest) =
      (if verify_checksum (rest.take b) (rest.getD b 0) then
        (DecodeEvent.payload (rest.take b) :: (nodemcu_process (rest.drop (b + 1))).1,
          (nodemcu_process (rest.drop (b + 1))).2)
      else
        (DecodeEvent.checksumMismatch (0xAA :: b :: rest.take (b + 1)) ::
            (nodemcu_process (rest.drop (b + 1))).1,
          (nodemcu_process (rest.drop (b + 1))).2)) := by
  match rest, hr with
  | c :: t, _ => exact nodemcu_process_frame hcomp

theorem nodemcu_frame_step (p : List Nat) (cs : Nat) (suffix : List Nat) :
    nodemcu_process (mkFrame p cs ++ suffix) =
      (if verify_checksum p cs then
        (DecodeEvent.payload p :: (nodemcu_process suffix).1, (nodemcu_process suffix).2)
      else
        (DecodeEvent.checksumMismatch (mkFrame p cs) :: (nodemcu_process suffix).1,
          (nodemcu_process suffix).2)) := by
  have hshape : mkFrame p cs ++ suffix = 0xAA :: p.length :: (p ++ cs :: suffix) := by
    simp [mkFrame]
  rw [hshape]
  rw [nodemcu_frame p.length (p ++ cs :: suffix) (by simp)
    (by simp only [List.length_append, List.length_cons]; omega)]
  rw [List.take_left' rfl]
  rw [List.getD_append_right p (cs :: suffix) 0 p.length (Nat.le_refl _)]
  rw [Nat.sub_self]
  rw [show (p ++ cs :: suffix).drop (p.length + 1) = suffix from by
    rw [show p ++ cs :: suffix = (p ++ [cs]) ++ suffix by simp]
    exact List.drop_left' (by simp)]
  rw [show (p ++ cs :: suffix).take (p.length + 1) = p ++ [cs] from by
    rw [show p ++ cs :: suffix = (p ++ [cs]) ++ suffix by simp]
    exact List.take_left' (by simp)]
  rfl

theorem extract_packet_frame (p : List Nat) (cs : Nat) (suffix : List Nat) :
    extract_packet (mkFrame p cs ++ suffix) = (some (mkFrame p cs), suffix) := by
  unfold extract_packet
  have hfind : (mkFrame p cs ++ suffix).findIdx? (· = 0xAA) = some 0 := by
    simp [mkFrame]
  rw [hfind]
  dsimp only
  have hlen : (mkFrame p cs ++ suffix).length = p.length + 3 + suffix.length := by
    simp [mkFrame_length]
  rw [if_neg (by omega)]
  have hgetD : (mkFrame p cs ++ suffix).getD (0 + 1) 0 = p.length := by
    simp [mkFrame]
  rw [hgetD]
  rw [if_neg (by omega)]
  rw [List.drop_zero]
  rw [show (0 : Nat) + 2 + p.length + 1 = p.length + 3 by omega]
  rw [List.take_left' (mkFrame_length p cs)]
  rw [List.drop_left' (mkFrame_length p cs)]

theorem stm_frame_step (p : List Nat) (cs : Nat) (suffix : List Nat) :
    stm_process (mkFrame p cs ++ suffix) =
      (if verify_checksum p cs then
        (DecodeEvent.payload p :: (stm_process suffix).1, (stm_process suffix).2)
      else
        (DecodeEvent.checksumMismatch (mkFrame p cs) :: (stm_process suffix).1,
          (stm_process suffix).2)) := by
  rw [stm_process_some (mkFrame p cs ++ suffix) (mkFrame p cs) suffix
    (extract_packet_frame p cs suffix)]
  have hdata : ((mkFrame p cs).drop 2).dropLast = p := by
    show (p ++ [cs]).dropLast = p
    exact List.dropLast_concat
  have hcs : ((mkFrame p cs).getLast?).getD 0 = cs := by
    have : (mkFrame p cs).getLast? = some cs := by
      show ((0xAA :: p.length :: p) ++ [cs]).getLast? = some cs
      exact List.getLast?_concat _
    rw [this]
    rfl
  rw [hdata, hcs]

theorem nodemcu_process_nil : nodemcu_process [] = ([], []) := by
  rw [nodemcu_process]

theorem stm_process_nil : stm_process [] = ([], []) :=
  stm_process_none [] [] rfl

theorem verify_checksum_good (p : List Nat) : verify_checksum p (xor_fold p) = true := by
  simp [verify_checksum]

theorem nodemcu_goodframe (p : List Nat) :
    nodemcu_process (mkFrame p (xor_fold p)) = ([DecodeEvent.payload p], []) := by
  have h := nodemcu_frame_step p (xor_fold p) []
  rw [List.append_nil] at h
  rw [h, if_pos (verify_checksum_good p), nodemcu_process_nil]

theorem stm_goodframe (p : List Nat) :
    stm_process (mkFrame p (xor_fold p)) = ([DecodeEvent.payload p], []) := by
  have h := stm_frame_step p (xor_fold p) []
  rw [List.append_nil] at h
  rw [h, if_pos (verify_checksum_good p), stm_process_nil]

end Plotter

namespace Plotter

theorem nodemcu_quiescent (p : List Nat) (cs : Nat) (k : Nat)
    (hk : k < (mkFrame p cs).length) :
    nodemcu_process ((mkFrame p cs).take k) = ([], (mkFrame p cs).take k) := by
  rw [mkFrame_length] at hk
  match k with
  | 0 => exact nodemcu_process_nil
  | 1 => rw [show (mkFrame p cs).take 1 = [0xAA] from rfl, nodemcu_process]
  | 2 => rw [show (mkFrame p cs).take 2 = [0xAA, p.length] from rfl, nodemcu_process]
  | j + 3 =>
    rw [show (mkFrame p cs).take (j + 3) = 0xAA :: p.length :: (p ++ [cs]).take (j + 1)
      from rfl]
    apply nodemcu_incomplete
    · intro hcon
      have hlen := congrArg List.length hcon
      simp only [List.length_take, List.length_append, List.length_cons, List.length_nil] at hlen
      omega
    · rw [List.length_take]
      simp only [List.length_append, List.length_cons, List.length_nil]
      omega

theorem stm_quiescent (p : List Nat) (cs : Nat) (k : Nat)
    (hk : k < (mkFrame p cs).length) :
    stm_process ((mkFrame p cs).take k) = ([], (mkFrame p cs).take k) := by
  rw [mkFrame_length] at hk
  apply stm_process_none
  match k with
  | 0 => rfl
  | k2 + 1 =>
    unfold extract_packet
    have hfind : ((mkFrame p cs).take (k2 + 1)).findIdx? (· = 0xAA) = some 0 := by
      rw [show (mkFrame p cs).take (k2 + 1) = 0xAA :: (p.length :: (p ++ [cs])).take k2
        from rfl]
      simp
    rw [hfind]
    dsimp only
    have hlen : ((mkFrame p cs).take (k2 + 1)).length = k2 + 1 := by
      rw [List.length_take, mkFrame_length]
      omega
    by_cases h3 : ((mkFrame p cs).take (k2 + 1)).length < 0 + 3
    · rw [if_pos h3]
    · rw [if_neg h3]
      obtain ⟨k3, rfl⟩ : ∃ k3, k2 = k3 + 2 := ⟨k2 - 2, by omega⟩
      have hgetD : ((mkFrame p cs).take (k3 + 2 + 1)).getD (0 + 1) 0 = p.length := rfl
      rw [hgetD]
      rw [if_pos (by omega)]

theorem feed_singletons (step : List Nat → List DecodeEvent × List Nat) :
    ∀ (ys : List Nat) (zs : List Nat) (acc : List DecodeEvent), ys ≠ [] →
      (∀ j, 0 < j → j < ys.length → step (zs ++ ys.take j) = ([], zs ++ ys.take j)) →
      List.foldl
        (fun st chunk => ((st.1 ++ (step (st.2 ++ chunk)).1), (step (st.2 ++ chunk)).2))
        (acc, zs) (ys.map (fun b => [b]))
      = (acc ++ (step (zs ++ ys)).1, (step (zs ++ ys)).2) := by
  intro ys
  induction ys with
  | nil => intro zs acc hne _; exact absurd rfl hne
  | cons y ys2 ih =>
    intro zs acc hne hq
    match ys2, ih with
    | [], _ => rfl
    | y2 :: ys3, ih =>
      show List.foldl _
          ((acc ++ (step (zs ++ [y])).1), (step (zs ++ [y])).2)
          ((y2 :: ys3).map (fun b => [b])) = _
      have h1 : step (zs ++ [y]) = ([], zs ++ [y]) := hq 1 (by omega) (by simp)
      rw [h1]
      rw [List.append_nil]
      rw [ih (zs ++ [y]) acc (by simp) ?hyp]
      case hyp =>
        intro j hj hjlen
        have h2 := hq (j + 1) (by omega) (by simpa using hjlen)
        rw [show zs ++ (y :: y2 :: ys3).take (j + 1) = zs ++ [y] ++ (y2 :: ys3).take j from by
          simp] at h2
        exact h2
      rw [show zs ++ [y] ++ (y2 :: ys3) = zs ++ y :: y2 :: ys3 from by simp]

theorem run_decoder_one (step : List Nat → List DecodeEvent × List Nat) (chunk : List Nat) :
    run_decoder step [chunk] = ((step chunk).1, (step chunk).2) := by
  show ([] ++ (step ([] ++ chunk)).1, (step ([] ++ chunk)).2) = _
  rw [List.nil_append, List.nil_append]

theorem run_decoder_bytewise (step : List Nat → List DecodeEvent × List Nat)
    (F : List Nat) (hne : F ≠ [])
    (hq : ∀ j, 0 < j → j < F.length → step (F.take j) = ([], F.take j)) :
    run_decoder step (F.map (fun b => [b])) = ((step F).1, (step F).2) := by
  unfold run_decoder
  rw [feed_singletons step F [] [] hne ?hyp]
  case hyp =>
    intro j hj hjlen
    rw [List.nil_append]
    exact hq j hj hjlen
  rw [List.nil_append, List.nil_append]

/-- C3 -/
theorem c3_bytewise_eq_oneshot (p : List Nat) (hlen : p.length ≤ 255) :
    run_decoder nodemcu_process ((mkFrame p (xor_fold p)).map (fun b => [b]))
        = ([DecodeEvent.payload p], [])
    ∧ run_decoder nodemcu_process [mkFrame p (xor_fold p)] = ([DecodeEvent.payload p], [])
    ∧ run_decoder stm_process ((mkFrame p (xor_fold p)).map (fun b => [b]))
        = ([DecodeEvent.payload p], [])
    ∧ run_decoder stm_process [mkFrame p (xor_fold p)] = ([DecodeEvent.payload p], []) := by
  have hne : mkFrame p (xor_fold p) ≠ [] := by simp [mkFrame]
  refine ⟨?_, ?_, ?_, ?_⟩
  · rw [run_decoder_bytewise nodemcu_process (mkFrame p (xor_fold p)) hne
      (fun j _ hjlen => nodemcu_quiescent p (xor_fold p) j hjlen)]
    rw [nodemcu_goodframe]
  · rw [run_decoder_one, nodemcu_goodframe]
  · rw [run_decoder_bytewise stm_process (mkFrame p (xor_fold p)) hne
      (fun j _ hjlen => stm_quiescent p (xor_fold p) j hjlen)]
    rw [stm_goodframe]
  · rw [run_decoder_one, stm_goodframe]

/-- C3 witness -/
theorem c3_witness :
    run_decoder nodemcu_process ((mkFrame [5, 10, 15] (xor_fold [5, 10, 15])).map (fun b => [b]))
        = ([DecodeEvent.payload [5, 10, 15]], [])
    ∧ run_decoder nodemcu_process [mkFrame [5, 10, 15] (xor_fold [5, 10, 15])]
        = ([DecodeEvent.payload [5, 10, 15]], [])
    ∧ run_decoder stm_process ((mkFrame [5, 10, 15] (xor_fold [5, 10, 15])).map (fun b => [b]))
        = ([DecodeEvent.payload [5, 10, 15]], [])
    ∧ run_decoder stm_process [mkFrame [5, 10, 15] (xor_fold [5, 10, 15])]
        = ([DecodeEvent.payload [5, 10, 15]], []) :=
  c3_bytewise_eq_oneshot [5, 10, 15] (by decide)

/-- C4 -/
theorem c4_checksum_mismatch_resync (p q : List Nat) (cs : Nat)
    (hp : p.length ≤ 255) (hq : q.length ≤ 255) (hbad : ¬(cs = xor_fold p)) :
    nodemcu_process (mkFrame p cs ++ mkFrame q (xor_fold q))
        = ([DecodeEvent.checksumMismatch (mkFrame p cs), DecodeEvent.payload q], [])
    ∧ stm_process (mkFrame p cs ++ mkFrame q (xor_fold q))
        = ([DecodeEvent.checksumMismatch (mkFrame p cs), DecodeEvent.payload q], []) := by
  have hbadv : verify_checksum p cs = false := by
    simp [verify_checksum]
    intro hcon
    exact hbad hcon.symm
  constructor
  · rw [nodemcu_frame_step p cs (mkFrame q (xor_fold q))]
    rw [hbadv]
    rw [nodemcu_goodframe q]
    rfl
  · rw [stm_frame_step p cs (mkFrame q (xor_fold q))]
    rw [hbadv]
    rw [stm_goodframe q]
    rfl

/-- C4 witness -/
theorem c4_witness :
    nodemcu_process (mkFrame [1] 0 ++ mkFrame [2] (xor_fold [2]))
        = ([DecodeEvent.checksumMismatch (mkFrame [1] 0), DecodeEvent.payload [2]], [])
    ∧ stm_process (mkFrame [1] 0 ++ mkFrame [2] (xor_fold [2]))
        = ([DecodeEvent.checksumMismatch (mkFrame [1] 0), DecodeEvent.payload [2]], []) :=
  c4_checksum_mismatch_resync [1] [2] 0 (by decide) (by decide) (by decide)

end Plotter

namespace Plotter

theorem npDiffI_length (l : List Int) : (npDiffI l).length = l.length - 1 := by
  rw [npDiffI, List.length_zipWith, List.length_tail]
  omega

theorem npDiffN_length (l : List Nat) : (npDiffN l).length = l.length - 1 := by
  rw [npDiffN, List.length_zipWith, List.length_tail]
  omega

theorem npDiffI_getD (l : List Int) (i : Nat) (h : i + 1 < l.length) :
    (npDiffI l).getD i 0 = l.getD (i + 1) 0 - l.getD i 0 := by
  rw [List.getD_eq_getElem _ _ (by rw [npDiffI_length]; omega)]
  rw [List.getD_eq_getElem _ _ h]
  rw [List.getD_eq_getElem _ _ (by omega)]
  simp [npDiffI]

theorem getD_map_rat {β : Type} (f : Rat → β) (l : List Rat) (i : Nat)
    (h : i < l.length) (d : β) :
    (l.map f).getD i d = f (l.getD i 0) := by
  rw [List.getD_eq_getElem _ _ (by simpa using h), List.getD_eq_getElem _ _ h]
  simp

theorem crossings_of_eq_spec (ys : List Rat) :
    crossings_of ys = risingCrossingsSpec ys := by
  unfold crossings_of risingCrossingsSpec npWhere
  rw [show (npDiffI (ys.map (fun y => npSign (y - listMean ys)))).length
      = ys.length - 1 from by rw [npDiffI_length]; simp]
  apply List.filter_congr
  intro i hi
  rw [List.mem_range] at hi
  apply decide_eq_decide.mpr
  have hs : i + 1 < ys.length := by omega
  rw [npDiffI_getD _ i (by simp; omega)]
  rw [getD_map_rat (fun y => npSign (y - listMean ys)) ys (i + 1) hs 0]
  rw [getD_map_rat (fun y => npSign (y - listMean ys)) ys i (by omega) 0]
  rw [getD_map_rat (fun y => y - listMean ys) ys (i + 1) hs 0]
  rw [getD_map_rat (fun y => y - listMean ys) ys i (by omega) 0]

end Plotter

namespace Plotter

theorem getLastD_ne_default : ∀ (t : List Nat) (b d : Nat),
    (b :: t).getLastD d = (b :: t).getLastD 0
  | [], _, _ => rfl
  | c :: t2, b, d => rfl

theorem npDiffN_sum : ∀ l : List Nat,
    (npDiffN l).sum = (l.getLastD 0 : Int) - (l.headD 0 : Int) := by
  intro l
  match l with
  | [] => rfl
  | [a] => simp [npDiffN]
  | a :: b :: t =>
    have hstep : npDiffN (a :: b :: t) = ((b : Int) - (a : Int)) :: npDiffN (b :: t) := rfl
    rw [hstep, List.sum_cons, npDiffN_sum (b :: t)]
    rw [show (a :: b :: t).getLastD 0 = (b :: t).getLastD 0 from by
      rw [List.getLastD_cons, getLastD_ne_default]]
    simp only [List.headD_cons]
    omega

end Plotter

namespace Plotter

/-- C7 counterexample: the strictly increasing ramp `[0, 1, 2]` centers to
`[-1, 0, 1]`, whose sign vector `[-1, 0, 1]` has two rising steps, so the
estimator returns the sample rate 10000, not 0. -/
theorem c7_monotonic_ramp_cex :
    List.Chain' (· < ·) ([0, 1, 2] : List Rat)
    ∧ estimate_frequency [0, 1, 2] 10000 = 10000
    ∧ ¬((10000 : Rat) = 0) := by
  refine ⟨by norm_num [List.chain'_cons], ?_, by norm_num⟩
  norm_num [estimate_frequency, crossings_of, npWhere, npDiffI, npDiffN, listMean, npSign,
    List.range_succ]

/-- C7 (amended) -/
theorem c7_estimate_frequency_amended (ys : List Rat) (r : Rat) :
    crossings_of ys = risingCrossingsSpec ys
    ∧ ((risingCrossingsSpec ys).length < 2 → estimate_frequency ys r = 0)
    ∧ (2 ≤ (risingCrossingsSpec ys).length →
        estimate_frequency ys r
          = r / ((((risingCrossingsSpec ys).getLastD 0 : Rat)
                - ((risingCrossingsSpec ys).headD 0 : Rat))
              / (((risingCrossingsSpec ys).length : Rat) - 1))) := by
  have hc := crossings_of_eq_spec ys
  refine ⟨hc, ?_, ?_⟩
  · intro hlt
    unfold estimate_frequency
    rw [hc, if_pos hlt]
  · intro hge
    unfold estimate_frequency
    rw [hc, if_neg (by omega)]
    congr 1
    rw [← Int.cast_list_sum]
    rw [npDiffN_sum, npDiffN_length]
    push_cast [Nat.cast_sub (show 1 ≤ (risingCrossingsSpec ys).length by omega)]
    ring

theorem c7_witness :
    estimate_frequency [0, 1, 2, 3] 10000 = 0
    ∧ estimate_frequency [0, 1, 2] 10000
      = 10000 / ((((risingCrossingsSpec [0, 1, 2]).getLastD 0 : Rat)
          - ((risingCrossingsSpec [0, 1, 2]).headD 0 : Rat))
        / (((risingCrossingsSpec [0, 1, 2]).length : Rat) - 1)) :=
  ⟨(c7_estimate_frequency_amended [0, 1, 2, 3] 10000).2.1
    (by norm_num [risingCrossingsSpec, listMean, npSign, List.range_succ]),
   (c7_estimate_frequency_amended [0, 1, 2] 10000).2.2
    (by norm_num [risingCrossingsSpec, listMean, npSign, List.range_succ])⟩

theorem crossings_chain (ys : List Rat) : List.Chain' (· < ·) (crossings_of ys) := by
  unfold crossings_of npWhere
  exact ((List.pairwise_lt_range _).filter _).chain'

theorem npDiffN_ge_one : ∀ l : List Nat, List.Chain' (· < ·) l → ∀ g ∈ npDiffN l, 1 ≤ g := by
  intro l
  match l with
  | [] => intro _ g hg; simp [npDiffN] at hg
  | [a] => intro _ g hg; simp [npDiffN] at hg
  | a :: b :: t =>
    intro hch g hg
    rw [show npDiffN (a :: b :: t) = ((b : Int) - (a : Int)) :: npDiffN (b :: t) from rfl] at hg
    rw [List.chain'_cons] at hch
    rcases List.mem_cons.mp hg with h | h
    · subst h
      have := hch.1
      omega
    · exact npDiffN_ge_one (b :: t) hch.2 g h

theorem sum_ge_length : ∀ l : List Int, (∀ g ∈ l, 1 ≤ g) → (l.length : Int) ≤ l.sum := by
  intro l
  induction l with
  | nil => intro _; simp
  | cons x t ih =>
    intro h
    rw [List.sum_cons, List.length_cons]
    have hx := h x (by simp)
    have ht := ih (fun g hg => h g (by simp [hg]))
    push_cast
    omega

/-- C9 -/
theorem c9_estimator_safety (ys : List Rat) (r : Rat) (hr : 0 < r)
    (hcr : 2 ≤ (crossings_of ys).length) :
    List.Chain' (· < ·) (crossings_of ys)
    ∧ 1 ≤ (((npDiffN (crossings_of ys)).map (fun (g : Int) => (g : Rat))).sum
          / ((npDiffN (crossings_of ys)).length : Rat))
    ∧ 0 < estimate_frequency ys r
    ∧ estimate_frequency ys r ≤ r := by
  have hch := crossings_chain ys
  have hgaps := npDiffN_ge_one (crossings_of ys) hch
  have hsum := sum_ge_length (npDiffN (crossings_of ys)) hgaps
  have hlenpos : 0 < (npDiffN (crossings_of ys)).length := by
    rw [npDiffN_length]
    omega
  have hperiod : 1 ≤ (((npDiffN (crossings_of ys)).map (fun (g : Int) => (g : Rat))).sum
      / ((npDiffN (crossings_of ys)).length : Rat)) := by
    rw [le_div_iff₀ (by positivity)]
    rw [one_mul, ← Int.cast_list_sum]
    exact_mod_cast hsum
  have hef : estimate_frequency ys r
      = r / (((npDiffN (crossings_of ys)).map (fun (g : Int) => (g : Rat))).sum
          / ((npDiffN (crossings_of ys)).length : Rat)) := by
    unfold estimate_frequency
    rw [if_neg (by omega)]
  refine ⟨hch, hperiod, ?_, ?_⟩
  · rw [hef]
    exact div_pos hr (lt_of_lt_of_le one_pos hperiod)
  · rw [hef]
    exact div_le_self hr.le hperiod

theorem c9_witness :
    List.Chain' (· < ·) (crossings_of [0, 1, 2])
    ∧ 1 ≤ (((npDiffN (crossings_of [0, 1, 2])).map (fun (g : Int) => (g : Rat))).sum
          / ((npDiffN (crossings_of [0, 1, 2])).length : Rat))
    ∧ 0 < estimate_frequency [0, 1, 2] 10000
    ∧ estimate_frequency [0, 1, 2] 10000 ≤ 10000 :=
  c9_estimator_safety [0, 1, 2] 10000 (by norm_num)
    (by norm_num [crossings_of, npWhere, npDiffI, listMean, npSign, List.range_succ])

end Plotter

namespace Plotter

theorem nodemcu_fuel_adequate : ∀ (fuel : Nat) (buf : List Nat), buf.length < fuel →
    nodemcu_process_fuel fuel buf = some (nodemcu_process buf) := by
  intro fuel
  induction fuel with
  | zero => intro buf h; omega
  | succ fuel ih =>
    intro buf h
    match buf with
    | [] => rw [nodemcu_process_nil]; rfl
    | [a] => rw [show nodemcu_process [a] = ([], [a]) from by rw [nodemcu_process]]; rfl
    | [a, b] => rw [show nodemcu_process [a, b] = ([], [a, b]) from by rw [nodemcu_process]]; rfl
    | a :: b :: c :: t =>
      by_cases ha : a = 0xAA
      · subst ha
        by_cases hinc : (c :: t).length < b + 1
        · rw [nodemcu_process_incomplete hinc]
          rw [nodemcu_process_fuel]
          rw [if_pos rfl, if_pos hinc]
        · rw [nodemcu_process_frame hinc]
          rw [nodemcu_process_fuel]
          rw [if_pos rfl, if_neg hinc]
          have hdrop : ((c :: t).drop (b + 1)).length < fuel := by
            rw [List.length_drop]
            simp only [List.length_cons] at h ⊢
            omega
          rw [ih ((c :: t).drop (b + 1)) hdrop]
          dsimp only
          by_cases hv : verify_checksum ((c :: t).take b) ((c :: t).getD b 0)
          · rw [if_pos hv, if_pos hv]
          · rw [if_neg hv, if_neg hv]
      · rw [nodemcu_process_pop ha]
        rw [nodemcu_process_fuel]
        rw [if_neg ha]
        apply ih
        simp only [List.length_cons] at h ⊢
        omega

theorem stm_fuel_adequate : ∀ (fuel : Nat) (buf : List Nat), buf.length < fuel →
    stm_process_fuel fuel buf = some (stm_process buf) := by
  intro fuel
  induction fuel with
  | zero => intro buf h; omega
  | succ fuel ih =>
    intro buf h
    rw [stm_process_fuel]
    cases he : extract_packet buf with
    | mk op rem =>
      cases op with
      | none =>
        rw [stm_process_none buf rem he]
      | some packet =>
        have hrem : rem.length < fuel := by
          have := extract_packet_shrink he
          omega
        rw [stm_process_some buf packet rem he]
        dsimp only
        rw [ih rem hrem]
        dsimp only
        by_cases hv : verify_checksum (packet.drop 2).dropLast ((packet.getLast?).getD 0)
        · rw [if_pos hv, if_pos hv]
        · rw [if_neg hv, if_neg hv]

/-- C8: one `update` pass terminates and its iteration count is bounded by
the buffer size: a fuel budget of `length + 1` loop iterations always
suffices to reproduce the unbounded loop's result, for both scripts. -/
theorem c8_feed_terminates_bounded (buf : List Nat) :
    nodemcu_process_fuel (buf.length + 1) buf = some (nodemcu_process buf)
    ∧ stm_process_fuel (buf.length + 1) buf = some (stm_process buf) :=
  ⟨nodemcu_fuel_adequate (buf.length + 1) buf (by omega),
   stm_fuel_adequate (buf.length + 1) buf (by omega)⟩

end Plotter

namespace Plotter

theorem dropSync_cons_sync (t : List Nat) : dropSync (0xAA :: t) = 0xAA :: t := by
  simp [dropSync]

theorem dropSync_cons_noise {a : Nat} (t : List Nat) (ha : ¬(a = 0xAA)) :
    dropSync (a :: t) = dropSync t := by
  simp [dropSync, ha]

theorem dropSync_idem (l : List Nat) : dropSync (dropSync l) = dropSync l := by
  induction l with
  | nil => rfl
  | cons a t ih =>
    by_cases ha : a = 0xAA
    · subst ha
      rw [dropSync_cons_sync, dropSync_cons_sync]
    · rw [dropSync_cons_noise t ha]
      exact ih

theorem dropSync_length_le (l : List Nat) : (dropSync l).length ≤ l.length := by
  induction l with
  | nil => exact Nat.le_refl _
  | cons a t ih =>
    by_cases ha : a = 0xAA
    · subst ha
      rw [dropSync_cons_sync]
    · rw [dropSync_cons_noise t ha]
      exact Nat.le_trans ih (by simp)

theorem dropSync_shape (l : List Nat) :
    dropSync l = [] ∨ ∃ t, dropSync l = 0xAA :: t := by
  induction l with
  | nil => exact Or.inl rfl
  | cons a t ih =>
    by_cases ha : a = 0xAA
    · subst ha
      exact Or.inr ⟨t, dropSync_cons_sync t⟩
    · rw [dropSync_cons_noise t ha]
      exact ih

theorem dropSync_append (B c : List Nat) :
    dropSync (B ++ c) = if dropSync B = [] then dropSync c else dropSync B ++ c := by
  induction B with
  | nil => simp [dropSync]
  | cons a t ih =>
    by_cases ha : a = 0xAA
    · subst ha
      rw [List.cons_append, dropSync_cons_sync, dropSync_cons_sync]
      rw [if_neg (by simp)]
      rfl
    · rw [List.cons_append, dropSync_cons_noise _ ha, dropSync_cons_noise t ha]
      exact ih

theorem dropSync_append_congr {B1 B2 : List Nat} (c : List Nat)
    (h : dropSync B1 = dropSync B2) :
    dropSync (B1 ++ c) = dropSync (B2 ++ c) := by
  rw [dropSync_append, dropSync_append, h]

theorem nodemcu_short (X : List Nat) (h : X.length < 3) : nodemcu_process X = ([], X) := by
  match X with
  | [] => exact nodemcu_process_nil
  | [a] => rw [nodemcu_process]
  | [a, b] => rw [nodemcu_process]
  | a :: b :: c :: t =>
    simp only [List.length_cons] at h
    omega

theorem nodemcu_relate (B : List Nat) :
    (nodemcu_process B).1 = (nodemcu_process (dropSync B)).1
    ∧ dropSync (nodemcu_process B).2 = dropSync (nodemcu_process (dropSync B)).2 := by
  induction B with
  | nil => exact ⟨rfl, rfl⟩
  | cons a t ih =>
    by_cases ha : a = 0xAA
    · subst ha
      rw [dropSync_cons_sync]
      exact ⟨rfl, rfl⟩
    · rw [dropSync_cons_noise t ha]
      match t, ih with
      | [], _ =>
        rw [show dropSync ([] : List Nat) = [] from rfl]
        rw [nodemcu_short [a] (by simp), nodemcu_process_nil]
        refine ⟨rfl, ?_⟩
        show dropSync [a] = dropSync []
        rw [dropSync_cons_noise _ ha]
      | [b], _ =>
        rw [nodemcu_short [a, b] (by simp)]
        rw [nodemcu_short (dropSync [b])
          (by have := dropSync_length_le [b]; simp at this ⊢; omega)]
        refine ⟨rfl, ?_⟩
        show dropSync [a, b] = dropSync (dropSync [b])
        rw [dropSync_idem, dropSync_cons_noise _ ha]
      | b :: c :: t2, ih =>
        rw [nodemcu_process_pop ha]
        exact ih

end Plotter

namespace Plotter

theorem extract_none_shape (B r : List Nat) (h : extract_packet B = (none, r)) : r = B := by
  unfold extract_packet at h
  split at h
  · injection h with h1 h2
    exact h2.symm
  · dsimp only at h
    split at h
    · injection h with h1 h2
      exact h2.symm
    · split at h
      · injection h with h1 h2
        exact h2.symm
      · injection h with h1 h2
        exact absurd h1 (by simp)

theorem extract_packet_cons_noise (a : Nat) (t : List Nat) (ha : ¬(a = 0xAA)) :
    extract_packet (a :: t) =
      (match extract_packet t with
        | (none, _) => (none, a :: t)
        | (some p, r) => (some p, r)) := by
  unfold extract_packet
  rw [List.findIdx?_cons]
  rw [if_neg (by simpa using ha)]
  rw [List.findIdx?_start_succ]
  cases hf : t.findIdx? (fun x => decide (x = 0xAA)) with
  | none => rfl
  | some k =>
    show (match some (k + (0 + 1)) with
      | none => (none, a :: t)
      | some start_index =>
        if (a :: t).length < start_index + 3 then (none, a :: t)
        else
          let length := (a :: t).getD (start_index + 1) 0
          if (a :: t).length < start_index + 2 + length + 1 then (none, a :: t)
          else
            ((((a :: t).drop start_index).take (2 + length + 1) : Option (List Nat)),
              (a :: t).drop (start_index + 2 + length + 1))) = _
    simp only [Nat.zero_add]
    by_cases hc1 : t.length < k + 3
    · rw [if_pos (by simp only [List.length_cons]; omega)]
      rw [if_pos hc1]
    · rw [if_neg (by simp only [List.length_cons]; omega)]
      rw [if_neg hc1]
      have hgetD : (a :: t).getD (k + 1 + 1) 0 = t.getD (k + 1) 0 := rfl
      rw [hgetD]
      by_cases hc2 : t.length < k + 2 + t.getD (k + 1) 0 + 1
      · rw [if_pos (by simp only [List.length_cons]; omega)]
        rw [if_pos hc2]
      · rw [if_neg (by simp only [List.length_cons]; omega)]
        rw [if_neg hc2]
        have hdrop1 : (a :: t).drop (k + 1) = t.drop k := rfl
        rw [hdrop1]
        have hdrop2 : (a :: t).drop (k + 1 + 2 + t.getD (k + 1) 0 + 1)
            = t.drop (k + 2 + t.getD (k + 1) 0 + 1) := by
          rw [show k + 1 + 2 + t.getD (k + 1) 0 + 1
              = (k + 2 + t.getD (k + 1) 0 + 1) + 1 by omega]
          rfl
        rw [hdrop2]

theorem stm_relate (B : List Nat) :
    (stm_process B).1 = (stm_process (dropSync B)).1
    ∧ dropSync (stm_process B).2 = dropSync (stm_process (dropSync B)).2 := by
  induction B with
  | nil => exact ⟨rfl, rfl⟩
  | cons a t ih =>
    by_cases ha : a = 0xAA
    · subst ha
      rw [dropSync_cons_sync]
      exact ⟨rfl, rfl⟩
    · rw [dropSync_cons_noise t ha]
      cases he : extract_packet t with
      | mk op r =>
        cases op with
        | none =>
          have hrt : r = t := extract_none_shape t r he
          rw [hrt] at he
          have h1 : stm_process (a :: t) = ([], a :: t) := by
            apply stm_process_none
            rw [extract_packet_cons_noise a t ha, he]
          have h2 : stm_process t = ([], t) := stm_process_none t t he
          rw [h1]
          rw [h2] at ih
          refine ⟨ih.1, ?_⟩
          show dropSync (a :: t) = _
          rw [dropSync_cons_noise t ha]
          exact ih.2
        | some p =>
          have h12 : stm_process (a :: t) = stm_process t := by
            rw [stm_process_some (a :: t) p r (by rw [extract_packet_cons_noise a t ha, he]),
              stm_process_some t p r he]
          rw [h12]
          exact ih

end Plotter

namespace Plotter

theorem extract_packet_sync1 : extract_packet [0xAA] = (none, [0xAA]) := rfl

theorem extract_packet_sync2 (b : Nat) : extract_packet [0xAA, b] = (none, [0xAA, b]) := by
  unfold extract_packet
  rw [List.findIdx?_cons]
  rw [if_pos (by simp)]
  dsimp only
  rw [if_pos (by simp)]

theorem extract_packet_incomplete_aligned (b c : Nat) (t2 : List Nat)
    (hinc : (c :: t2).length < b + 1) :
    extract_packet (0xAA :: b :: c :: t2) = (none, 0xAA :: b :: c :: t2) := by
  unfold extract_packet
  rw [show (0xAA :: b :: c :: t2).findIdx? (· = 0xAA) = some 0 from by
    rw [List.findIdx?_cons]
    rw [if_pos (by simp)]]
  dsimp only
  rw [if_neg (by simp only [List.length_cons]; omega)]
  rw [show (0xAA :: b :: c :: t2).getD (0 + 1) 0 = b from rfl]
  rw [if_pos (by simp only [List.length_cons] at hinc ⊢; omega)]

theorem extract_packet_aligned (b c : Nat) (t2 : List Nat)
    (hcomp : ¬((c :: t2).length < b + 1)) :
    extract_packet (0xAA :: b :: c :: t2)
      = (some (0xAA :: b :: (c :: t2).take (b + 1)), (c :: t2).drop (b + 1)) := by
  unfold extract_packet
  rw [show (0xAA :: b :: c :: t2).findIdx? (· = 0xAA) = some 0 from by
    rw [List.findIdx?_cons]
    rw [if_pos (by simp)]]
  dsimp only
  rw [if_neg (by simp only [List.length_cons]; omega)]
  rw [show (0xAA :: b :: c :: t2).getD (0 + 1) 0 = b from rfl]
  rw [if_neg (by simp only [List.length_cons] at hcomp ⊢; omega)]
  rw [List.drop_zero]
  rw [show (2 : Nat) + b + 1 = b + 3 by omega]
  rfl

theorem take_getD_decomp (b : Nat) (l : List Nat) (hb : b < l.length) :
    l.take (b + 1) = l.take b ++ [l.getD b 0] := by
  rw [List.take_succ]
  congr 1
  rw [List.getElem?_eq_getElem hb]
  rw [List.getD_eq_getElem _ _ hb]
  rfl

theorem events_eq_general : ∀ (n : Nat) (X : List Nat), X.length ≤ n →
    (nodemcu_process X).1 = (stm_process X).1
    ∧ dropSync (nodemcu_process X).2 = dropSync (stm_process X).2 := by
  intro n
  induction n using Nat.strong_induction_on with
  | _ n ih =>
    intro X hX
    obtain ⟨hA1, hA2⟩ := nodemcu_relate X
    obtain ⟨hB1, hB2⟩ := stm_relate X
    rw [hA1, hB1, hA2, hB2]
    have hslen : (dropSync X).length ≤ X.length := dropSync_length_le X
    rcases dropSync_shape X with hsh | ⟨t, hsh⟩
    · rw [hsh, nodemcu_process_nil, stm_process_nil]
      exact ⟨rfl, rfl⟩
    · rw [hsh]
      have hslen2 : (0xAA :: t : List Nat).length ≤ n := by
        rw [← hsh]
        omega
      match t, hslen2 with
      | [], _ =>
        rw [nodemcu_short [0xAA] (by simp)]
        rw [stm_process_none [0xAA] [0xAA] extract_packet_sync1]
        exact ⟨rfl, rfl⟩
      | [b], _ =>
        rw [nodemcu_short [0xAA, b] (by simp)]
        rw [stm_process_none [0xAA, b] [0xAA, b] (extract_packet_sync2 b)]
        exact ⟨rfl, rfl⟩
      | b :: c :: t2, hslen2 =>
        by_cases hinc : (c :: t2).length < b + 1
        · rw [nodemcu_process_incomplete hinc]
          rw [stm_process_none _ _ (extract_packet_incomplete_aligned b c t2 hinc)]
          exact ⟨rfl, rfl⟩
        · have hb : b < (c :: t2).length := by
            simp only [List.length_cons] at hinc ⊢
            omega
          have hn3 : 3 ≤ n := by
            simp only [List.length_cons] at hslen2
            omega
          have ihrec := ih (n - 1) (by omega) ((c :: t2).drop (b + 1))
            (by
              rw [List.length_drop]
              simp only [List.length_cons] at hslen2 ⊢
              omega)
          rw [nodemcu_process_frame hinc]
          rw [stm_process_some _ _ _ (extract_packet_aligned b c t2 hinc)]
          have htake := take_getD_decomp b (c :: t2) hb
          have hdata : ((0xAA :: b :: (c :: t2).take (b + 1)).drop 2).dropLast
              = (c :: t2).take b := by
            show ((c :: t2).take (b + 1)).dropLast = _
            rw [htake, List.dropLast_concat]
          have hcs : ((0xAA :: b :: (c :: t2).take (b + 1)).getLast?).getD 0
              = (c :: t2).getD b 0 := by
            rw [List.getLast?_cons_cons]
            rw [htake]
            rw [show b :: ((c :: t2).take b ++ [(c :: t2).getD b 0])
                = (b :: (c :: t2).take b) ++ [(c :: t2).getD b 0] from rfl]
            rw [List.getLast?_concat]
            rfl
          rw [hdata, hcs]
          by_cases hv : verify_checksum ((c :: t2).take b) ((c :: t2).getD b 0)
          · rw [if_pos hv, if_pos hv]
            refine ⟨?_, ihrec.2⟩
            show DecodeEvent.payload ((c :: t2).take b) :: _ = DecodeEvent.payload ((c :: t2).take b) :: _
            rw [ihrec.1]
          · rw [if_neg hv, if_neg hv]
            refine ⟨?_, ihrec.2⟩
            show DecodeEvent.checksumMismatch (0xAA :: b :: (c :: t2).take (b + 1)) :: _
              = DecodeEvent.checksumMismatch (0xAA :: b :: (c :: t2).take (b + 1)) :: _
            rw [ihrec.1]

end Plotter

namespace Plotter

theorem events_eq_cross (X Y : List Nat) (h : dropSync X = dropSync Y) :
    (nodemcu_process X).1 = (stm_process Y).1
    ∧ dropSync (nodemcu_process X).2 = dropSync (stm_process Y).2 := by
  obtain ⟨hA1, hA2⟩ := nodemcu_relate X
  obtain ⟨hB1, hB2⟩ := stm_relate Y
  obtain ⟨hev, hres⟩ :=
    events_eq_general (dropSync X).length (dropSync X) (Nat.le_refl _)
  constructor
  · rw [hA1, hB1, ← h]
    exact hev
  · rw [hA2, hB2, ← h]
    exact hres

theorem run_events_eq : ∀ (chunks : List (List Nat)) (acc : List DecodeEvent)
    (B1 B2 : List Nat), dropSync B1 = dropSync B2 →
    (List.foldl (fun st chunk => ((st.1 ++ (nodemcu_process (st.2 ++ chunk)).1),
        (nodemcu_process (st.2 ++ chunk)).2)) (acc, B1) chunks).1
    = (List.foldl (fun st chunk => ((st.1 ++ (stm_process (st.2 ++ chunk)).1),
        (stm_process (st.2 ++ chunk)).2)) (acc, B2) chunks).1 := by
  intro chunks
  induction chunks with
  | nil =>
    intro acc B1 B2 h
    rfl
  | cons ck rest ih =>
    intro acc B1 B2 h
    show (List.foldl _ (acc ++ (nodemcu_process (B1 ++ ck)).1,
        (nodemcu_process (B1 ++ ck)).2) rest).1 = _
    have hd := dropSync_append_congr ck h
    obtain ⟨hev, hres⟩ := events_eq_cross (B1 ++ ck) (B2 ++ ck) hd
    rw [hev]
    exact ih (acc ++ (stm_process (B2 ++ ck)).1) _ _ hres

/-- C10: event-level equivalence of the two scripts' parsers: for every
sequence of input chunks fed from an empty buffer, the pop-one-byte resync
loop of plotter_nodemcu2.py and the find-based extract_packet loop of
plottter_stm.py emit the same sequence of events — the same Payload
events and the same rejected frame byte ranges — although their buffers
may differ by retained noise in front of the first sync byte. -/
theorem c10_decoder_equivalence (chunks : List (List Nat)) :
    (run_decoder nodemcu_process chunks).1 = (run_decoder stm_process chunks).1 :=
  run_events_eq chunks [] [] [] rfl

end Plotter
